import Mathlib

/-!
Verification of the multi-user channel model (`MultiUserChannelMatrix`) and the
alternating-minimization interference-alignment solver (`AlternatingMinIASolver`)
from `ia/ia.py`.

The numpy complex matrices of the source are embedded as Mathlib matrices over
`CQ`, the field of complex numbers with rational real and imaginary parts.
Rational components keep every definition executable, which the floating point
entries of the source would not; the algebraic identities the claims are about
are insensitive to this choice.

The helper module `misc` (functions `peig`, `leig`, `randn_c`) is imported by
`ia/ia.py` but its source is not part of the repository snapshot, so those three
primitives are modelled from the spec as parameters (an eigenvector-extraction
library and explicit random draws); each such definition is marked
`Modelled from the spec:` in its doc comment.
-/

open scoped Matrix

/-- A complex number with rational real and imaginary parts.  Stands for the
complex scalars of the numpy arrays in `ia/ia.py`. -/
structure CQ where
  re : ℚ
  im : ℚ
deriving DecidableEq

theorem CQ.ext {z w : CQ} (h1 : z.re = w.re) (h2 : z.im = w.im) : z = w := by
  cases z; cases w; cases h1; cases h2; rfl

instance : Zero CQ := ⟨⟨0, 0⟩⟩

instance : One CQ := ⟨⟨1, 0⟩⟩

instance : Add CQ := ⟨fun z w => ⟨z.re + w.re, z.im + w.im⟩⟩

instance : Neg CQ := ⟨fun z => ⟨-z.re, -z.im⟩⟩

instance : Mul CQ := ⟨fun z w => ⟨z.re * w.re - z.im * w.im, z.re * w.im + z.im * w.re⟩⟩

/-- The squared modulus of a `CQ` scalar, a rational number. -/
def CQ.normSq (z : CQ) : ℚ := z.re * z.re + z.im * z.im

instance : Inv CQ := ⟨fun z => ⟨z.re / z.normSq, -z.im / z.normSq⟩⟩

@[simp] theorem CQ.zero_re : (0 : CQ).re = 0 := rfl

@[simp] theorem CQ.zero_im : (0 : CQ).im = 0 := rfl

@[simp] theorem CQ.one_re : (1 : CQ).re = 1 := rfl

@[simp] theorem CQ.one_im : (1 : CQ).im = 0 := rfl

@[simp] theorem CQ.add_re (z w : CQ) : (z + w).re = z.re + w.re := rfl

@[simp] theorem CQ.add_im (z w : CQ) : (z + w).im = z.im + w.im := rfl

@[simp] theorem CQ.neg_re (z : CQ) : (-z).re = -z.re := rfl

@[simp] theorem CQ.neg_im (z : CQ) : (-z).im = -z.im := rfl

@[simp] theorem CQ.mul_re (z w : CQ) : (z * w).re = z.re * w.re - z.im * w.im := rfl

@[simp] theorem CQ.mul_im (z w : CQ) : (z * w).im = z.re * w.im + z.im * w.re := rfl

@[simp] theorem CQ.inv_re (z : CQ) : z⁻¹.re = z.re / z.normSq := rfl

@[simp] theorem CQ.inv_im (z : CQ) : z⁻¹.im = -z.im / z.normSq := rfl

theorem CQ.normSq_nonneg (z : CQ) : 0 ≤ z.normSq :=
  add_nonneg (mul_self_nonneg _) (mul_self_nonneg _)

theorem CQ.normSq_eq_zero {z : CQ} : z.normSq = 0 ↔ z = 0 := by
  constructor
  · intro h
    have h' : z.re * z.re + z.im * z.im = 0 := h
    have hre : z.re * z.re = 0 := by
      nlinarith [mul_self_nonneg z.re, mul_self_nonneg z.im]
    have him : z.im * z.im = 0 := by
      nlinarith [mul_self_nonneg z.re, mul_self_nonneg z.im]
    exact CQ.ext (mul_self_eq_zero.mp hre) (mul_self_eq_zero.mp him)
  · rintro rfl; simp [CQ.normSq]

theorem CQ.normSq_mul (z w : CQ) : (z * w).normSq = z.normSq * w.normSq := by
  simp [CQ.normSq]; ring

instance : CommRing CQ where
  add := (· + ·)
  zero := 0
  neg := Neg.neg
  mul := (· * ·)
  one := 1
  nsmul := nsmulRec
  zsmul := zsmulRec
  add_assoc a b c := by apply CQ.ext <;> simp <;> ring
  zero_add a := by apply CQ.ext <;> simp
  add_zero a := by apply CQ.ext <;> simp
  add_comm a b := by apply CQ.ext <;> simp <;> ring
  neg_add_cancel a := by apply CQ.ext <;> simp
  mul_assoc a b c := by apply CQ.ext <;> simp <;> ring
  one_mul a := by apply CQ.ext <;> simp
  mul_one a := by apply CQ.ext <;> simp
  left_distrib a b c := by apply CQ.ext <;> simp <;> ring
  right_distrib a b c := by apply CQ.ext <;> simp <;> ring
  zero_mul a := by apply CQ.ext <;> simp
  mul_zero a := by apply CQ.ext <;> simp
  mul_comm a b := by apply CQ.ext <;> simp <;> ring

instance : Field CQ where
  inv := Inv.inv
  exists_pair_ne := ⟨0, 1, by decide⟩
  mul_inv_cancel a ha := by
    have hn : a.normSq ≠ 0 := fun h => ha (CQ.normSq_eq_zero.mp h)
    apply CQ.ext <;>
    · simp only [CQ.mul_re, CQ.mul_im, CQ.inv_re, CQ.inv_im, CQ.one_re, CQ.one_im]
      field_simp
      simp [CQ.normSq]
      try ring
  inv_zero := by apply CQ.ext <;> simp [CQ.normSq]
  nnqsmul := _
  qsmul := _

/-- Complex conjugation on `CQ`. -/
def CQ.conj (z : CQ) : CQ := ⟨z.re, -z.im⟩

instance : StarRing CQ where
  star := CQ.conj
  star_involutive z := by apply CQ.ext <;> simp [CQ.conj]
  star_mul z w := by apply CQ.ext <;> simp [CQ.conj] <;> ring
  star_add z w := by apply CQ.ext <;> simp [CQ.conj] <;> ring

@[simp] theorem CQ.star_re (z : CQ) : (star z).re = z.re := rfl

@[simp] theorem CQ.star_im (z : CQ) : (star z).im = -z.im := rfl

/-- Squared Frobenius norm of a complex matrix, as a rational number.  This is
`np.linalg.norm(A, 'fro') ** 2` from the source. -/
def frobSq {n m : ℕ} (A : Matrix (Fin n) (Fin m) CQ) : ℚ :=
  ∑ i, ∑ j, CQ.normSq (A i j)

theorem frobSq_nonneg {n m : ℕ} (A : Matrix (Fin n) (Fin m) CQ) : 0 ≤ frobSq A :=
  Finset.sum_nonneg fun _ _ => Finset.sum_nonneg fun _ _ => CQ.normSq_nonneg _

/-- Matrix inverse by the adjugate formula, an executable rendering of
`np.linalg.inv`.  It agrees with Mathlib's `Matrix.inv` (proved below); numpy
raises `LinAlgError` on an exactly singular matrix, which the solver models by
guarding updates on `det ≠ 0`. -/
def cinv {n : ℕ} (A : Matrix (Fin n) (Fin n) CQ) : Matrix (Fin n) (Fin n) CQ :=
  if A.det = 0 then 0 else A.det⁻¹ • A.adjugate

theorem cinv_eq_inv {n : ℕ} (A : Matrix (Fin n) (Fin n) CQ) : cinv A = A⁻¹ := by
  rw [Matrix.inv_def, Ring.inverse_eq_inv]
  unfold cinv
  by_cases h : A.det = 0
  · simp [h]
  · simp [h]

theorem cinv_mul {n : ℕ} (A : Matrix (Fin n) (Fin n) CQ) (h : A.det ≠ 0) :
    cinv A * A = 1 := by
  rw [cinv_eq_inv]
  exact Matrix.nonsing_inv_mul A (isUnit_iff_ne_zero.mpr h)

/-- A matrix has orthonormal columns when its conjugate-transpose times itself
is the identity (`C^H · C = I`). -/
def hasOrthonormalCols {n m : ℕ} (A : Matrix (Fin n) (Fin m) CQ) : Prop :=
  Aᴴ * A = 1

/-- Zero-prefixed cumulative sum: `csum f k` is the `k`-th entry of
`np.hstack([0, np.cumsum(f)])` used by `getChannel`. -/
def csum (f : ℕ → ℕ) (k : ℕ) : ℕ := ∑ i in Finset.range k, f i

theorem csum_succ (f : ℕ → ℕ) (k : ℕ) : csum f (k + 1) = csum f k + f k :=
  Finset.sum_range_succ f k

theorem csum_mono (f : ℕ → ℕ) {a b : ℕ} (h : a ≤ b) : csum f a ≤ csum f b :=
  Finset.sum_le_sum_of_subset (Finset.range_subset.mpr h)

theorem csum_block_lt {f : ℕ → ℕ} {K : ℕ} (k : Fin K) {i : ℕ} (hi : i < f k) :
    csum f k + i < csum f K := by
  have h1 : csum f k + i < csum f (k + 1) := by
    rw [csum_succ]; omega
  exact lt_of_lt_of_le h1 (csum_mono f k.isLt)

/-- Modelled from the spec: the eigenvector-extraction primitives `peig`
(dominant) and `leig` (least dominant) live in the module `misc`, which is
imported by `ia/ia.py` but absent from the repository snapshot.  The spec
describes them as returning the `m` eigenvectors of a Hermitian matrix
associated with the largest (resp. smallest) eigenvalues, as the columns of a
matrix; the source uses the `[0]` component of their returned pair.  They are
modelled as an opaque-to-the-solver library parameter; the orthonormality the
spec promises for their output is taken as a hypothesis where a claim needs
it. -/
structure EigLib where
  peig : (n : ℕ) → Matrix (Fin n) (Fin n) CQ → (m : ℕ) → Matrix (Fin n) (Fin m) CQ
  leig : (n : ℕ) → Matrix (Fin n) (Fin n) CQ → (m : ℕ) → Matrix (Fin n) (Fin m) CQ

/-- State of an `AlternatingMinIASolver` together with its attached
`MultiUserChannelMatrix`, at fixed consistent dimensions: `K` users, per-user
antenna counts `Nr`/`Nt`, per-user stream counts `Ns` (the solver's `_Ns`).
`H` is the concatenated channel matrix, `F`/`C`/`W` the per-user precoders,
interference-subspace bases and receive filters.  `hNs` records the spec's
well-formedness condition `Ns[k] <= Nr[k]`. -/
structure IASt (K : ℕ) (Nr Nt Ns : ℕ → ℕ) where
  H : Matrix (Fin (csum Nr K)) (Fin (csum Nt K)) CQ
  F : (l : Fin K) → Matrix (Fin (Nt l)) (Fin (Ns l)) CQ
  C : (k : Fin K) → Matrix (Fin (Nr k)) (Fin (Nr k - Ns k)) CQ
  W : (k : Fin K) → Matrix (Fin (Ns k)) (Fin (Nr k)) CQ
  hNs : ∀ k : Fin K, Ns k ≤ Nr k

/-- `MultiUserChannelMatrix.getChannel(k, l)`: the block of `H` with rows
`[cumNr[k], cumNr[k+1])` and columns `[cumNt[l], cumNt[l+1])`, the cumulative
sums being recomputed from the current `Nr`/`Nt` on every call. -/
def getChannel {K : ℕ} {Nr Nt Ns : ℕ → ℕ} (s : IASt K Nr Nt Ns) (k l : Fin K) :
    Matrix (Fin (Nr k)) (Fin (Nt l)) CQ :=
  Matrix.of fun i j =>
    s.H ⟨csum Nr k + i, csum_block_lt k i.isLt⟩ ⟨csum Nt l + j, csum_block_lt l j.isLt⟩

/-- One interference-covariance contribution in `updateC`: with
`Hkl_F = np.dot(self.getChannel(k, l), self.F[l])`, the term added to `C[k]`
is `np.dot(Hkl_F, Hkl_F.transpose().conjugate())`. -/
def covTerm {K : ℕ} {Nr Nt Ns : ℕ → ℕ} (s : IASt K Nr Nt Ns) (k l : Fin K) :
    Matrix (Fin (Nr k)) (Fin (Nr k)) CQ :=
  getChannel s k l * s.F l * (getChannel s k l * s.F l)ᴴ

/-- `AlternatingMinIASolver.updateC`: for each user `k`, accumulate the
interference covariance over the interferers `l ≠ k` and replace `C[k]` by the
`Nr[k] - Ns[k]` dominant eigenvectors.  In the source the accumulator starts as
`np.zeros(self.Nr[k])`, a 1-D zero vector that numpy broadcasting turns into
the zero matrix as soon as the first `Nr[k] × Nr[k]` term is added; it is
rendered here as the zero matrix. -/
def updateC {K : ℕ} {Nr Nt Ns : ℕ → ℕ} (E : EigLib) (s : IASt K Nr Nt Ns) :
    IASt K Nr Nt Ns :=
  { s with
    C := fun k =>
      E.peig (Nr k)
        ((List.finRange K).foldl
          (fun Ck l => if k ≠ l then Ck + covTerm s k l else Ck) 0)
        (Nr k - Ns k) }

/-- The interference-nulling projector `Y[k] = np.eye(Nr[k]) - C[k]·C[k]^H`
computed at the start of `updateF`. -/
def projY {K : ℕ} {Nr Nt Ns : ℕ → ℕ} (s : IASt K Nr Nt Ns) (k : Fin K) :
    Matrix (Fin (Nr k)) (Fin (Nr k)) CQ :=
  1 - s.C k * (s.C k)ᴴ

/-- One projected-interference contribution in `updateF`: with
`lH = self.getChannel(k, l)`, the term added to `newF[l]` is
`np.dot(np.dot(lH.conjugate().transpose(), Y[k]), lH)`. -/
def nullTerm {K : ℕ} {Nr Nt Ns : ℕ → ℕ} (s : IASt K Nr Nt Ns) (l k : Fin K) :
    Matrix (Fin (Nt l)) (Fin (Nt l)) CQ :=
  (getChannel s k l)ᴴ * projY s k * getChannel s k l

/-- `AlternatingMinIASolver.updateF`: form `Y[k] = I - C[k]·C[k]^H` for every
user, accumulate `newF[l] = Σ_{k≠l} Hkl^H · Y[k] · Hkl` and replace `F[l]` by
its `Ns[l]` least dominant eigenvectors.  The accumulator starts in the source
as `np.zeros(self.Nt[l], self.Nt[l])` (a 1-D zero vector, the second argument
being read as a dtype), again absorbed by broadcasting into the zero matrix
once a term is added; rendered as the zero matrix. -/
def updateF {K : ℕ} {Nr Nt Ns : ℕ → ℕ} (E : EigLib) (s : IASt K Nr Nt Ns) :
    IASt K Nr Nt Ns :=
  { s with
    F := fun l =>
      E.leig (Nt l)
        ((List.finRange K).foldl
          (fun Fl k => if k ≠ l then Fl + nullTerm s l k else Fl) 0)
        (Ns l) }

/-- The augmented matrix `tildeHi = np.hstack([Hkk·F[k], C[k]])` inverted by
`updateW`; square of size `Nr[k] × Nr[k]` because `Ns[k] + (Nr[k]-Ns[k]) =
Nr[k]`.  Column `j` comes from `Hkk·F[k]` when `j < Ns[k]` and from `C[k]`
otherwise. -/
def tildeH {K : ℕ} {Nr Nt Ns : ℕ → ℕ} (s : IASt K Nr Nt Ns) (k : Fin K) :
    Matrix (Fin (Nr k)) (Fin (Nr k)) CQ :=
  Matrix.of fun i j =>
    if h : (j : ℕ) < Ns k then (getChannel s k k * s.F k) i ⟨j, h⟩
    else s.C k i ⟨(j : ℕ) - Ns k, by have := j.isLt; omega⟩

/-- The successor state produced by a successful `updateW`: `newW[k]` is
`np.linalg.inv(tildeHi)[0:Ns[k]]`, the first `Ns[k]` rows of the inverse. -/
def newWState {K : ℕ} {Nr Nt Ns : ℕ → ℕ} (s : IASt K Nr Nt Ns) : IASt K Nr Nt Ns :=
  { s with
    W := fun k => Matrix.of fun i j =>
      cinv (tildeH s k) ⟨i, lt_of_lt_of_le i.isLt (s.hNs k)⟩ j }

/-- `AlternatingMinIASolver.updateW`: invert each `tildeH` and keep the first
`Ns[k]` rows as the new `W[k]`.  `np.linalg.inv` raises `LinAlgError` on a
singular matrix, modelled as the `Except.error` branch; the raise happens
before `self.W` is assigned, so the state is unchanged on error. -/
def updateW {K : ℕ} {Nr Nt Ns : ℕ → ℕ} (s : IASt K Nr Nt Ns) :
    Except String (IASt K Nr Nt Ns) :=
  if _h : ∀ k : Fin K, (tildeH s k).det ≠ 0 then .ok (newWState s)
  else .error "Singular matrix"

/-- One leakage contribution in `getCost`: with
`Hkl_Fl = np.dot(self.getChannel(k, l), self.F[l])`, the term is
`np.linalg.norm(Hkl_Fl - np.dot(np.dot(C[k], C[k]^H), Hkl_Fl), 'fro') ** 2`. -/
def costTerm {K : ℕ} {Nr Nt Ns : ℕ → ℕ} (s : IASt K Nr Nt Ns) (k l : Fin K) : ℚ :=
  frobSq (getChannel s k l * s.F l - s.C k * (s.C k)ᴴ * (getChannel s k l * s.F l))

/-- `AlternatingMinIASolver.getCost`: sum over receivers `k` and transmitters
`l != k` of the squared Frobenius norm of `Hkl·F[l] - C[k]·C[k]^H·Hkl·F[l]`. -/
def getCost {K : ℕ} {Nr Nt Ns : ℕ → ℕ} (s : IASt K Nr Nt Ns) : ℚ :=
  (List.finRange K).foldl
    (fun Cost k =>
      (List.finRange K).foldl
        (fun Cost l => if l ≠ k then Cost + costTerm s k l else Cost)
        Cost)
    0

/-- `AlternatingMinIASolver.step`: `updateC(); updateF(); updateW()` in that
order, once. -/
def step {K : ℕ} {Nr Nt Ns : ℕ → ℕ} (E : EigLib) (s : IASt K Nr Nt Ns) :
    Except String (IASt K Nr Nt Ns) :=
  updateW (updateF E (updateC E s))

/-- Generic loop-accumulation lemma: a python `for` loop that adds `g x` to an
accumulator equals the starting value plus the sum of the mapped list. -/
theorem foldl_add_sum {M : Type} [AddCommMonoid M] {α : Type} (g : α → M) :
    ∀ (xs : List α) (b : M), xs.foldl (fun a x => a + g x) b = b + (xs.map g).sum := by
  intro xs
  induction xs with
  | nil => intro b; simp
  | cons x xs ih => intro b; simp [ih, add_assoc]

/-- A guarded accumulation loop over `np.arange(K)` equals the starting value
plus the sum over the indices satisfying the guard. -/
theorem foldl_guard_sum {M : Type} [AddCommMonoid M] {K : ℕ}
    (p : Fin K → Prop) [DecidablePred p] (t : Fin K → M) (b : M) :
    (List.finRange K).foldl (fun acc x => if p x then acc + t x else acc) b
      = b + ∑ x in Finset.univ.filter p, t x := by
  have h1 : (fun (acc : M) (x : Fin K) => if p x then acc + t x else acc)
      = fun acc x => acc + if p x then t x else 0 := by
    funext acc x; split <;> simp
  rw [h1, foldl_add_sum]
  congr 1
  rw [← Fin.sum_univ_def, Finset.sum_filter]

theorem filter_ne_left_erase {K : ℕ} (k : Fin K) :
    Finset.univ.filter (fun x : Fin K => k ≠ x) = Finset.univ.erase k := by
  ext x
  simp only [Finset.mem_filter, Finset.mem_erase, Finset.mem_univ, and_true, true_and]
  exact ne_comm

theorem filter_ne_right_erase {K : ℕ} (k : Fin K) :
    Finset.univ.filter (fun x : Fin K => x ≠ k) = Finset.univ.erase k := by
  ext x
  simp only [Finset.mem_filter, Finset.mem_erase, Finset.mem_univ, and_true, true_and]

/-- The row (or column) index of the full channel matrix belonging to block
`p.1` at in-block offset `p.2`: the tiling map of the K×K block structure. -/
def blockIdx (f : ℕ → ℕ) (K : ℕ) (p : Σ k : Fin K, Fin (f k)) : Fin (csum f K) :=
  ⟨csum f p.1 + p.2, csum_block_lt p.1 p.2.isLt⟩

theorem csum_cover (f : ℕ → ℕ) (K : ℕ) :
    ∀ r, r < csum f K → ∃ k, k < K ∧ ∃ i, i < f k ∧ csum f k + i = r := by
  induction K with
  | zero => intro r hr; simp [csum] at hr
  | succ n ih =>
    intro r hr
    by_cases h : r < csum f n
    · obtain ⟨k, hk, i, hi, he⟩ := ih r h
      exact ⟨k, Nat.lt_succ_of_lt hk, i, hi, he⟩
    · refine ⟨n, Nat.lt_succ_self n, r - csum f n, ?_, ?_⟩ <;>
      · rw [csum_succ] at hr; omega

theorem csum_disjoint (f : ℕ → ℕ) {k1 k2 i1 i2 : ℕ}
    (h1 : i1 < f k1) (h2 : i2 < f k2) (he : csum f k1 + i1 = csum f k2 + i2) :
    k1 = k2 ∧ i1 = i2 := by
  rcases lt_trichotomy k1 k2 with h | h | h
  · exfalso
    have hle : csum f (k1 + 1) ≤ csum f k2 := csum_mono f h
    rw [csum_succ] at hle
    omega
  · subst h; omega
  · exfalso
    have hle : csum f (k2 + 1) ≤ csum f k1 := csum_mono f h
    rw [csum_succ] at hle
    omega

/-- The block-index map is a bijection: the K×K grid of blocks tiles the full
matrix index range with no gap (surjective) and no overlap (injective). -/
theorem blockIdx_bijective (f : ℕ → ℕ) (K : ℕ) :
    Function.Bijective (blockIdx f K) := by
  constructor
  · rintro ⟨k1, i1⟩ ⟨k2, i2⟩ h
    have hv : csum f k1 + (i1 : ℕ) = csum f k2 + (i2 : ℕ) := congrArg Fin.val h
    obtain ⟨hk, hi⟩ := csum_disjoint f i1.isLt i2.isLt hv
    have hk2 : k1 = k2 := Fin.ext hk
    subst hk2
    exact congrArg (Sigma.mk k1) (Fin.ext hi)
  · intro r
    obtain ⟨k, hk, i, hi, he⟩ := csum_cover f K r r.isLt
    exact ⟨⟨⟨k, hk⟩, ⟨i, hi⟩⟩, Fin.ext he⟩

/-- Scalar-or-sequence broadcast used by `randomize`/`randomizeF`: an integer
argument behaves as `np.ones(K) * n`, i.e. the same count for all `K` users;
a sequence is used as given. -/
def bcast (a : ℕ ⊕ List ℕ) (K : ℕ) : List ℕ :=
  match a with
  | .inl n => List.replicate K n
  | .inr l => l

/-- Embeds a rational as a `CQ` scalar (used for division by a real norm). -/
def CQ.ofRat (q : ℚ) : CQ := ⟨q, 0⟩

/-- `AlternatingMinIASolver.randomizeF(Nt, Ns, K)`.  Modelled from the spec:
`randn_c` (module `misc`, absent from the snapshot) draws a circularly
symmetric complex Gaussian matrix; the draw for user `k` is the parameter
`G k`, and `nrm k` stands for its Frobenius norm `np.linalg.norm(G k, 'fro')`
(the irrational square root is kept abstract and pinned by the hypothesis
`(nrm k)^2 = frobSq (G k)` where a theorem needs it).  Each precoder is the
normalized draw; the second component is the stored `_Ns`, which the `Ns`
property returns. -/
def randomizeF (NtA NsA : ℕ ⊕ List ℕ) (K : ℕ)
    (G : (k : Fin K) →
      Matrix (Fin ((bcast NtA K).getD k 0)) (Fin ((bcast NsA K).getD k 0)) CQ)
    (nrm : Fin K → ℚ) :
    ((k : Fin K) →
      Matrix (Fin ((bcast NtA K).getD k 0)) (Fin ((bcast NsA K).getD k 0)) CQ)
      × List ℕ :=
  (fun k => Matrix.of fun i j => CQ.ofRat (nrm k)⁻¹ * G k i j, bcast NsA K)

/-- A dynamically-shaped numpy value, used where the source manipulates arrays
whose shape is not fixed by the surrounding types: `i0` is the integer zero
filling `np.zeros(K, dtype=np.ndarray)`, `vec` a 1-D array, `mat` a 2-D array
(the dimensions are stored explicitly because a list of rows loses the column
count when there are zero rows). -/
inductive NObj where
  | i0 : NObj
  | vec : List CQ → NObj
  | mat : ℕ → ℕ → List (List CQ) → NObj
deriving DecidableEq

/-- The numpy `shape` tuple of a dynamically-shaped value. -/
def NObj.shape : NObj → List ℕ
  | .i0 => []
  | .vec xs => [xs.length]
  | .mat r c _ => [r, c]

/-- Row-major list of the entries of a typed matrix. -/
def matToLists {r c : ℕ} (M : Matrix (Fin r) (Fin c) CQ) : List (List CQ) :=
  List.ofFn fun i => List.ofFn fun j => M i j

/-- A typed matrix as a dynamically-shaped numpy value. -/
def toNObj {r c : ℕ} (M : Matrix (Fin r) (Fin c) CQ) : NObj :=
  .mat r c (matToLists M)

/-- The stored fields of a `MultiUserChannelMatrix`, with the dynamic shapes
the source allows (`Nr`/`Nt` arrays of any length, `H` of any shape). -/
structure MUChan where
  K : ℕ
  Nr : List ℕ
  Nt : List ℕ
  H : NObj
deriving DecidableEq

/-- `MultiUserChannelMatrix.__init__`: `H = np.array([])` (an empty 1-D
array), empty `Nr`/`Nt`, `K = 0`. -/
def freshChan : MUChan := ⟨0, [], [], .vec []⟩

/-- `MultiUserChannelMatrix.init_from_channel_matrix`: validates the shape of
`channel_matrix` against `(sum(Nr), sum(Nt))`, then `len(Nr) == len(Nt)`, then
`len(Nt) == K`, raising `ValueError` (the `some` message) at the first failed
check; the four fields are assigned only after all checks pass, so the first
component is the state as stored after the call (unchanged on failure). -/
def init_from_channel_matrix (s : MUChan) {r c : ℕ}
    (channel_matrix : Matrix (Fin r) (Fin c) CQ) (Nr Nt : List ℕ) (K : ℕ) :
    MUChan × Option String :=
  if (r, c) ≠ (Nr.sum, Nt.sum) then
    (s, some "Shape of the channel_matrix must be equal to the sum or receive antennas of all users times the sum of the receive antennas of all users.")
  else if Nr.length ≠ Nt.length then
    (s, some "K must be equal to the number of elements in Nr and Nt")
  else if Nt.length ≠ K then
    (s, some "K must be equal to the number of elements in Nr and Nt")
  else ({ K := K, Nr := Nr, Nt := Nt, H := toNObj channel_matrix }, none)

/-- `MultiUserChannelMatrix.randomize`: broadcasts integer `Nr`/`Nt` to all
`K` users, stores them together with `K`, and draws a fresh `H` of shape
`(sum(Nr), sum(Nt))`.  Modelled from the spec: the complex Gaussian generator
`randn_c` (module `misc`, absent from the snapshot) is the entry oracle `G`.
No validation is performed. -/
def randomize (_s : MUChan) (NrA NtA : ℕ ⊕ List ℕ) (K : ℕ) (G : ℕ → ℕ → CQ) :
    MUChan :=
  let Nr := bcast NrA K
  let Nt := bcast NtA K
  { K := K, Nr := Nr, Nt := Nt,
    H := .mat Nr.sum Nt.sum
      (List.ofFn (n := Nr.sum) fun i => List.ofFn (n := Nt.sum) fun j => G i j) }

/-- The data-model invariant of `MultiUserChannelMatrix`:
`len(Nr) == len(Nt) == K` and `H.shape == (sum(Nr), sum(Nt))`. -/
def chanInv (s : MUChan) : Prop :=
  s.Nr.length = s.K ∧ s.Nt.length = s.K ∧ s.H.shape = [s.Nr.sum, s.Nt.sum]

instance (s : MUChan) : Decidable (chanInv s) := by
  unfold chanInv; infer_instance

/-- The value `self.C` holds immediately after the first statement of
`updateC` (`self.C = np.zeros(self.K, dtype=np.ndarray)`, replacing the old
`C` before any new basis is computed): an object array of `K` integer
zeros.  The per-user bases are then written into this array in place, entry by
entry, so this value and the partially filled arrays after it are observable
whenever a later part of `updateC` fails. -/
def updateCFirstAssign (K : ℕ) : List NObj := List.replicate K NObj.i0

/-- The solver's `C` field as the dynamically-shaped object array it is in the
source. -/
def solverCObjs {K : ℕ} {Nr Nt Ns : ℕ → ℕ} (s : IASt K Nr Nt Ns) : List NObj :=
  List.ofFn fun k : Fin K => toNObj (s.C k)

/-- Whether an `Except` result is a success (no exception raised). -/
def exceptOk {ε α : Type} : Except ε α → Bool
  | .ok _ => true
  | .error _ => false

theorem updateC_C_eq {K : ℕ} {Nr Nt Ns : ℕ → ℕ} (E : EigLib) (s : IASt K Nr Nt Ns)
    (k : Fin K) :
    (updateC E s).C k
      = E.peig (Nr k) (∑ l in Finset.univ.erase k, covTerm s k l) (Nr k - Ns k) := by
  have h := foldl_guard_sum (fun l : Fin K => k ≠ l) (covTerm s k)
    (0 : Matrix (Fin (Nr k)) (Fin (Nr k)) CQ)
  rw [filter_ne_left_erase k, zero_add] at h
  exact congrArg (fun M => E.peig (Nr k) M (Nr k - Ns k)) h

theorem updateF_F_eq {K : ℕ} {Nr Nt Ns : ℕ → ℕ} (E : EigLib) (s : IASt K Nr Nt Ns)
    (l : Fin K) :
    (updateF E s).F l
      = E.leig (Nt l) (∑ k in Finset.univ.erase l, nullTerm s l k) (Ns l) := by
  have h := foldl_guard_sum (fun k : Fin K => k ≠ l) (nullTerm s l)
    (0 : Matrix (Fin (Nt l)) (Fin (Nt l)) CQ)
  rw [filter_ne_right_erase l, zero_add] at h
  exact congrArg (fun M => E.leig (Nt l) M (Ns l)) h

theorem getCost_eq {K : ℕ} {Nr Nt Ns : ℕ → ℕ} (s : IASt K Nr Nt Ns) :
    getCost s = ∑ k : Fin K, ∑ l in Finset.univ.erase k, costTerm s k l := by
  unfold getCost
  have hout : (fun (Cost : ℚ) (k : Fin K) =>
      (List.finRange K).foldl
        (fun Cost l => if l ≠ k then Cost + costTerm s k l else Cost) Cost)
      = fun Cost k => Cost + ∑ l in Finset.univ.erase k, costTerm s k l := by
    funext Cost k
    have h := foldl_guard_sum (fun l : Fin K => l ≠ k) (costTerm s k) Cost
    rw [filter_ne_right_erase k] at h
    exact h
  rw [hout, foldl_add_sum, zero_add, ← Fin.sum_univ_def]

instance {n m : ℕ} (A : Matrix (Fin n) (Fin m) CQ) : Decidable (hasOrthonormalCols A) := by
  unfold hasOrthonormalCols; infer_instance

theorem updateW_ok_frame {K : ℕ} {Nr Nt Ns : ℕ → ℕ} (s s2 : IASt K Nr Nt Ns)
    (h : updateW s = Except.ok s2) : s2.H = s.H ∧ s2.F = s.F ∧ s2.C = s.C := by
  unfold updateW at h
  by_cases hd : ∀ k : Fin K, (tildeH s k).det ≠ 0
  · rw [dif_pos hd] at h
    injection h with h2
    subst h2
    exact ⟨rfl, rfl, rfl⟩
  · rw [dif_neg hd] at h
    exact absurd h (by simp)

/-- Per-user receive antenna counts of concrete scenario A (`Nr=[2,4,6]`). -/
def nrA : ℕ → ℕ := fun n => [2, 4, 6].getD n 0

/-- Per-user transmit antenna counts of concrete scenario A (`Nt=[2,3,5]`). -/
def ntA : ℕ → ℕ := fun n => [2, 3, 5].getD n 0

/-- C2: `getChannel(k, l)` returns exactly the sub-matrix of `H` at rows
`[prefixNr[k], prefixNr[k+1])` and columns `[prefixNt[l], prefixNt[l+1])`
(first conjunct, with `blockIdx` the prefix-sum index map); over all `(k, l)`
these blocks tile `H` with no gap or overlap (the block-index maps are
bijections); and in scenario A (`K=3`, `Nr=[2,4,6]`, `Nt=[2,3,5]`, `H` of
shape `(12,10)`), `getChannel(1, 0)` is the shape-`(4,2)` block with row range
`[2,6)` and column range `[0,2)`. -/
theorem claim_getChannel_blocks :
    (∀ (K : ℕ) (Nr Nt Ns : ℕ → ℕ) (s : IASt K Nr Nt Ns) (k l : Fin K)
        (i : Fin (Nr k)) (j : Fin (Nt l)),
      getChannel s k l i j = s.H (blockIdx Nr K ⟨k, i⟩) (blockIdx Nt K ⟨l, j⟩))
    ∧ (∀ (K : ℕ) (f : ℕ → ℕ), Function.Bijective (blockIdx f K))
    ∧ (∀ (Ns : ℕ → ℕ) (s : IASt 3 nrA ntA Ns) (i : Fin 4) (j : Fin 2),
        getChannel s 1 0 i j
          = s.H ⟨2 + (i : ℕ), by
                  have h1 : (i : ℕ) < 4 := i.isLt
                  have h2 : csum nrA 3 = 12 := by decide
                  omega⟩
              ⟨(j : ℕ), by
                  have h1 : (j : ℕ) < 2 := j.isLt
                  have h2 : csum ntA 3 = 10 := by decide
                  omega⟩) := by
  refine ⟨fun K Nr Nt Ns s k l i j => rfl, fun K f => blockIdx_bijective f K, ?_⟩
  intro Ns s i j
  refine congr (congrArg s.H (Fin.ext ?_)) (Fin.ext ?_)
  · have e1 : csum nrA 1 = 2 := by decide
    simpa using by omega
  · have e2 : csum ntA 0 = 0 := by decide
    simpa using by omega

/-- C3: `getCost()` equals the double sum over `k` and `l ≠ k` of the squared
Frobenius norm of `Hkl·F[l] - C[k]·C[k]^H·Hkl·F[l]`; it is non-negative for
every valid solver state; and for `K = 1` the sum is empty, so it returns 0. -/
theorem claim_getCost :
    (∀ (K : ℕ) (Nr Nt Ns : ℕ → ℕ) (s : IASt K Nr Nt Ns),
        getCost s = ∑ k : Fin K, ∑ l in Finset.univ.erase k, costTerm s k l
          ∧ 0 ≤ getCost s)
    ∧ ∀ (Nr Nt Ns : ℕ → ℕ) (s : IASt 1 Nr Nt Ns), getCost s = 0 := by
  constructor
  · intro K Nr Nt Ns s
    refine ⟨getCost_eq s, ?_⟩
    rw [getCost_eq]
    exact Finset.sum_nonneg fun k _ => Finset.sum_nonneg fun l _ => by
      unfold costTerm; exact frobSq_nonneg _
  · intro Nr Nt Ns s
    rw [getCost_eq]
    refine Finset.sum_eq_zero fun k _ => ?_
    have he : (Finset.univ.erase k : Finset (Fin 1)) = ∅ := by
      ext x; simp [Subsingleton.elim x k]
    rw [he, Finset.sum_empty]

/-- C1: for every user `l`, `updateF` replaces `F[l]` with the `Ns[l]`
least-dominant eigenvectors (the spec-modelled `leig`) of the accumulated
matrix `Ql = Σ_{k≠l} Hkl^H · (I - C[k]·C[k]^H) · Hkl` of size `Nt[l] × Nt[l]`;
`updateF` is total on every consistently sized state with at least two users
(each user then has an interferer, so the broadcast-vector accumulator of the
source becomes a genuine matrix), i.e. it completes without error. -/
theorem claim_updateF :
    ∀ (E : EigLib) (K : ℕ) (Nr Nt Ns : ℕ → ℕ) (s : IASt K Nr Nt Ns),
      2 ≤ K →
      ∀ l : Fin K,
        (updateF E s).F l
          = E.leig (Nt l)
              (∑ k in Finset.univ.erase l,
                (getChannel s k l)ᴴ * (1 - s.C k * (s.C k)ᴴ) * getChannel s k l)
              (Ns l) := by
  intro E K Nr Nt Ns s hK l
  rw [updateF_F_eq]
  rfl

/-- C4: after `updateC`, every `C[k]` is the `Nr[k] - Ns[k]` dominant
eigenvectors (the spec-modelled `peig`) of the interference covariance
`Qk = Σ_{l≠k} (Hkl·F[l])·(Hkl·F[l])^H`, its shape is `(Nr[k], Nr[k]-Ns[k])`
by construction, and it has orthonormal columns whenever the
eigenvector-extraction primitive yields orthonormal columns (the spec promises
this of `peig`); for `K = 1` there are no interferers, the accumulated
covariance is the zero matrix, and `updateC` completes without error. -/
theorem claim_updateC :
    (∀ (E : EigLib) (K : ℕ) (Nr Nt Ns : ℕ → ℕ) (s : IASt K Nr Nt Ns) (k : Fin K),
        (updateC E s).C k
            = E.peig (Nr k) (∑ l in Finset.univ.erase k, covTerm s k l) (Nr k - Ns k)
          ∧ ((∀ A : Matrix (Fin (Nr k)) (Fin (Nr k)) CQ,
                hasOrthonormalCols (E.peig (Nr k) A (Nr k - Ns k))) →
              hasOrthonormalCols ((updateC E s).C k)))
    ∧ ∀ (E : EigLib) (Nr Nt Ns : ℕ → ℕ) (s : IASt 1 Nr Nt Ns) (k : Fin 1),
        (updateC E s).C k = E.peig (Nr k) 0 (Nr k - Ns k) := by
  constructor
  · intro E K Nr Nt Ns s k
    refine ⟨updateC_C_eq E s k, fun hortho => ?_⟩
    rw [updateC_C_eq]
    exact hortho _
  · intro E Nr Nt Ns s k
    rw [updateC_C_eq]
    have he : (Finset.univ.erase k : Finset (Fin 1)) = ∅ := by
      ext x; simp [Subsingleton.elim x k]
    rw [he, Finset.sum_empty]

/-- C5: after a successful `updateW`, every `W[k]` equals the first `Ns[k]`
rows of the inverse of the square matrix `tildeH = [Hkk·F[k] | C[k]]`, and
whenever every `tildeH` is non-singular the zero-forcing identity
`W[k] · tildeH = [I | 0]` holds entrywise. -/
theorem claim_updateW :
    ∀ (K : ℕ) (Nr Nt Ns : ℕ → ℕ) (s : IASt K Nr Nt Ns),
      (∀ k : Fin K, (tildeH s k).det ≠ 0) →
      updateW s = Except.ok (newWState s)
        ∧ ∀ (k : Fin K) (i : Fin (Ns k)) (j : Fin (Nr k)),
            (newWState s).W k i j
                = (tildeH s k)⁻¹ ⟨(i : ℕ), lt_of_lt_of_le i.isLt (s.hNs k)⟩ j
              ∧ ((newWState s).W k * tildeH s k) i j
                  = if (i : ℕ) = (j : ℕ) then 1 else 0 := by
  intro K Nr Nt Ns s hdet
  constructor
  · unfold updateW
    rw [dif_pos hdet]
  · intro k i j
    constructor
    · show cinv (tildeH s k) _ j = _
      rw [cinv_eq_inv]
    · have hmul := cinv_mul (tildeH s k) (hdet k)
      calc ((newWState s).W k * tildeH s k) i j
          = ∑ m, (newWState s).W k i m * tildeH s k m j := Matrix.mul_apply
        _ = ∑ m, cinv (tildeH s k) ⟨(i : ℕ), lt_of_lt_of_le i.isLt (s.hNs k)⟩ m
              * tildeH s k m j := rfl
        _ = (cinv (tildeH s k) * tildeH s k)
              ⟨(i : ℕ), lt_of_lt_of_le i.isLt (s.hNs k)⟩ j := (Matrix.mul_apply).symm
        _ = (1 : Matrix (Fin (Nr k)) (Fin (Nr k)) CQ)
              ⟨(i : ℕ), lt_of_lt_of_le i.isLt (s.hNs k)⟩ j := by rw [hmul]
        _ = if (i : ℕ) = (j : ℕ) then 1 else 0 := by
            rw [Matrix.one_apply]
            simp [Fin.ext_iff]

/-- The constant-zero dimension function of a freshly constructed solver. -/
@[reducible] def zf : ℕ → ℕ := fun _ => 0

/-- Constant per-user count 1 (tiny concrete scenarios). -/
@[reducible] def oneF : ℕ → ℕ := fun _ => 1

/-- Constant per-user count 2 (tiny concrete scenarios). -/
@[reducible] def two2 : ℕ → ℕ := fun _ => 2

/-- A concrete eigenvector-extraction library used to instantiate theorems
whose statements quantify over the spec-modelled `misc` primitives: it returns
the first `m` columns of the identity matrix (an orthonormal family whenever
`m ≤ n`), ignoring its matrix argument. -/
def idEig : EigLib :=
  { peig := fun _n _A _m => Matrix.of fun i j => if (i : ℕ) = (j : ℕ) then 1 else 0,
    leig := fun _n _A _m => Matrix.of fun i j => if (i : ℕ) = (j : ℕ) then 1 else 0 }

/-- A freshly constructed `AlternatingMinIASolver` with its freshly constructed
channel: `K = 0`, every stored array empty. -/
def freshSolver : IASt 0 zf zf zf :=
  { H := Matrix.of fun _ _ => 0
    F := fun l => l.elim0
    C := fun k => k.elim0
    W := fun k => k.elim0
    hNs := fun k => k.elim0 }

/-- A concrete two-user state (`Nr=[2,2]`, `Nt=[1,1]`, `Ns=[1,1]`), all-ones
channel, precoders and interference bases. -/
def sCex : IASt 2 two2 oneF oneF :=
  { H := Matrix.of fun _ _ => 1
    F := fun _ => Matrix.of fun _ _ => 1
    C := fun _ => Matrix.of fun _ _ => 1
    W := fun _ => Matrix.of fun _ _ => 0
    hNs := fun _ => by unfold oneF two2; omega }

/-- A concrete one-user state (`Nr=Nt=Ns=[1]`) with unit channel and precoder. -/
def oneSolver : IASt 1 oneF oneF oneF :=
  { H := Matrix.of fun _ _ => 1
    F := fun _ => Matrix.of fun _ _ => 1
    C := fun _ => Matrix.of fun _ _ => 0
    W := fun _ => Matrix.of fun _ _ => 0
    hNs := fun _ => le_refl _ }

theorem hdetOne : ∀ k : Fin 1, (tildeH oneSolver k).det ≠ 0 := by
  intro k
  have hk : k = 0 := Subsingleton.elim k 0
  subst hk
  rw [Matrix.det_fin_one]
  have h1 : tildeH oneSolver 0 0 0 = 1 := by
    simp [tildeH, getChannel, oneSolver, Matrix.mul_apply]
  rw [h1]
  exact one_ne_zero

theorem idEig_peig_orthonormal :
    ∀ A : Matrix (Fin 2) (Fin 2) CQ, hasOrthonormalCols (idEig.peig 2 A 1) := by
  intro A
  rw [show idEig.peig 2 A 1 = idEig.peig 2 0 1 from rfl]
  unfold hasOrthonormalCols idEig
  ext i j
  fin_cases i
  fin_cases j
  simp [Matrix.mul_apply, Fin.sum_univ_two, Matrix.conjTranspose_apply, Matrix.one_apply]

/-- Witness for C1 at a concrete two-user state. -/
theorem claim_updateF_witness :
    (updateF idEig sCex).F 0
      = idEig.leig 1
          (∑ k in Finset.univ.erase 0,
            (getChannel sCex k 0)ᴴ * (1 - sCex.C k * (sCex.C k)ᴴ) * getChannel sCex k 0)
          1 :=
  claim_updateF idEig 2 two2 oneF oneF sCex (by omega) 0

/-- Witness for C4 at a concrete two-user state, with the concrete
identity-columns eigenvector library. -/
theorem claim_updateC_witness :
    (updateC idEig sCex).C 0
        = idEig.peig 2 (∑ l in Finset.univ.erase 0, covTerm sCex 0 l) 1
      ∧ hasOrthonormalCols ((updateC idEig sCex).C 0) :=
  ⟨(claim_updateC.1 idEig 2 two2 oneF oneF sCex 0).1,
   (claim_updateC.1 idEig 2 two2 oneF oneF sCex 0).2 (fun A => idEig_peig_orthonormal A)⟩

/-- Witness for C5 at a concrete one-user state with invertible `tildeH`. -/
theorem claim_updateW_witness :
    updateW oneSolver = Except.ok (newWState oneSolver) :=
  (claim_updateW 1 oneF oneF oneF oneSolver hdetOne).1

/-- C8: after `randomizeF(Nt, Ns, K)` (scalar arguments broadcast to all `K`
users), every `F[k]` has shape `(Nt[k], Ns[k])` (by construction of the
result type), unit Frobenius norm whenever the draw is nonzero (expressed by
its norm `nrm k` being positive with square `frobSq (G k)`), and the solver's
`Ns` property thereafter returns the broadcast per-user stream counts. -/
theorem claim_randomizeF :
    ∀ (NtA NsA : ℕ ⊕ List ℕ) (K : ℕ)
      (G : (k : Fin K) →
        Matrix (Fin ((bcast NtA K).getD k 0)) (Fin ((bcast NsA K).getD k 0)) CQ)
      (nrm : Fin K → ℚ),
      (∀ k, 0 < nrm k ∧ nrm k ^ 2 = frobSq (G k)) →
      (∀ k, frobSq ((randomizeF NtA NsA K G nrm).1 k) = 1)
        ∧ (randomizeF NtA NsA K G nrm).2 = bcast NsA K := by
  intro NtA NsA K G nrm h
  refine ⟨fun k => ?_, rfl⟩
  obtain ⟨hpos, hsq⟩ := h k
  have hne : nrm k ≠ 0 := ne_of_gt hpos
  have hfact : frobSq ((randomizeF NtA NsA K G nrm).1 k)
      = CQ.normSq (CQ.ofRat (nrm k)⁻¹) * frobSq (G k) := by
    unfold randomizeF frobSq
    simp only [Matrix.of_apply, CQ.normSq_mul, Finset.mul_sum]
  rw [hfact, ← hsq]
  have hns : CQ.normSq (CQ.ofRat (nrm k)⁻¹) = (nrm k)⁻¹ * (nrm k)⁻¹ := by
    simp [CQ.normSq, CQ.ofRat]
  rw [hns, sq]
  field_simp

/-- A concrete unit draw for the `randomizeF` witness. -/
def M1 : Matrix (Fin 1) (Fin 1) CQ := Matrix.of fun _ _ => 1

/-- The concrete draw family for the `randomizeF` witness. -/
def G1 : (k : Fin 1) →
    Matrix (Fin ((bcast (Sum.inl 1) 1).getD k 0)) (Fin ((bcast (Sum.inl 1) 1).getD k 0)) CQ
  | ⟨0, _⟩ => M1

/-- Witness for C8 at `K = 1` with scalar `Nt = Ns = 1` and a unit draw. -/
theorem claim_randomizeF_witness :
    (∀ k : Fin 1, frobSq ((randomizeF (Sum.inl 1) (Sum.inl 1) 1 G1 (fun _ => 1)).1 k) = 1)
      ∧ (randomizeF (Sum.inl 1) (Sum.inl 1) 1 G1 (fun _ => 1)).2 = bcast (Sum.inl 1) 1 :=
  claim_randomizeF (Sum.inl 1) (Sum.inl 1) 1 G1 (fun _ => 1)
    (by
      intro k
      fin_cases k
      refine ⟨one_pos, ?_⟩
      show (1 : ℚ) ^ 2 = frobSq M1
      norm_num [M1, frobSq, CQ.normSq])

/-- C6: `init_from_channel_matrix(H, Nr, Nt, K)` raises whenever the shape of
`H` differs from `(sum(Nr), sum(Nt))` or `len(Nr) ≠ len(Nt)` or
`len(Nt) ≠ K`, and on any such failure the stored fields are unchanged; on
success all four fields are stored; in particular `Nr=[2,2]`, `Nt=[2,2,2]`,
`K=2` raises for every channel matrix and leaves the fresh (empty) `H` in
place. -/
theorem claim_init_channel :
    (∀ (s : MUChan) (r c : ℕ) (M : Matrix (Fin r) (Fin c) CQ) (Nr Nt : List ℕ) (K : ℕ),
      (((r, c) ≠ (Nr.sum, Nt.sum) ∨ Nr.length ≠ Nt.length ∨ Nt.length ≠ K) →
          (init_from_channel_matrix s M Nr Nt K).2.isSome = true
            ∧ (init_from_channel_matrix s M Nr Nt K).1 = s)
        ∧ (¬((r, c) ≠ (Nr.sum, Nt.sum) ∨ Nr.length ≠ Nt.length ∨ Nt.length ≠ K) →
            init_from_channel_matrix s M Nr Nt K
              = (⟨K, Nr, Nt, toNObj M⟩, none)))
    ∧ ∀ (r c : ℕ) (M : Matrix (Fin r) (Fin c) CQ),
        (init_from_channel_matrix freshChan M [2, 2] [2, 2, 2] 2).2.isSome = true
          ∧ (init_from_channel_matrix freshChan M [2, 2] [2, 2, 2] 2).1 = freshChan := by
  constructor
  · intro s r c M Nr Nt K
    constructor
    · intro hviol
      unfold init_from_channel_matrix
      by_cases h1 : (r, c) ≠ (Nr.sum, Nt.sum)
      · rw [if_pos h1]; exact ⟨rfl, rfl⟩
      · rw [if_neg h1]
        by_cases h2 : Nr.length ≠ Nt.length
        · rw [if_pos h2]; exact ⟨rfl, rfl⟩
        · rw [if_neg h2]
          have h3 : Nt.length ≠ K := by tauto
          rw [if_pos h3]; exact ⟨rfl, rfl⟩
    · intro hok
      push_neg at hok
      obtain ⟨hsh, hlen, hK⟩ := hok
      unfold init_from_channel_matrix
      rw [if_neg (fun hne => hne hsh), if_neg (fun hne => hne hlen),
        if_neg (fun hne => hne hK)]
  · intro r c M
    unfold init_from_channel_matrix
    by_cases h1 : (r, c) ≠ (([2, 2] : List ℕ).sum, ([2, 2, 2] : List ℕ).sum)
    · rw [if_pos h1]; exact ⟨rfl, rfl⟩
    · rw [if_neg h1, if_pos (by decide : ([2, 2] : List ℕ).length ≠ ([2, 2, 2] : List ℕ).length)]
      exact ⟨rfl, rfl⟩

/-- Witness for C6: scenario C on the fresh channel object, with a channel
matrix whose shape even matches the antenna sums, so that the raise comes from
the length check. -/
theorem claim_init_channel_witness :
    (init_from_channel_matrix freshChan (0 : Matrix (Fin 4) (Fin 6) CQ) [2, 2] [2, 2, 2] 2).2.isSome = true
      ∧ (init_from_channel_matrix freshChan (0 : Matrix (Fin 4) (Fin 6) CQ) [2, 2] [2, 2, 2] 2).1 = freshChan :=
  (claim_init_channel.1 freshChan 4 6 0 [2, 2] [2, 2, 2] 2).1 (by decide)

/-- C7 counterexample: `randomize` performs no validation, so calling it with
`Nr=[1,1,1]`, `Nt=[1,1]`, `K=2` succeeds and silently stores a state violating
the invariant `len(Nr) == len(Nt) == K`, refuting the claim that every state
reachable through a successful initializer satisfies the invariant and that
violating argument combinations are reported as errors. -/
theorem claim_chanInv_cex :
    ¬ chanInv (randomize freshChan (Sum.inr [1, 1, 1]) (Sum.inr [1, 1]) 2 (fun _ _ => 0)) := by
  intro h
  have h1 := h.1
  simp [randomize, bcast, freshChan] at h1

/-- C7 amended: `init_from_channel_matrix` does enforce the invariant (every
successful call stores a state satisfying it, C6 covering the error side);
`randomize` always stores an `H` of shape `(sum(Nr), sum(Nt))` and satisfies
the full invariant when its arguments are scalars or length-`K` sequences, but
it validates nothing: length-mismatched sequences are stored silently, without
an error (the counterexample). -/
theorem claim_chanInv_amended :
    (∀ (s : MUChan) (r c : ℕ) (M : Matrix (Fin r) (Fin c) CQ) (Nr Nt : List ℕ) (K : ℕ),
        (init_from_channel_matrix s M Nr Nt K).2 = none →
          chanInv (init_from_channel_matrix s M Nr Nt K).1)
    ∧ (∀ (s : MUChan) (NrA NtA : ℕ ⊕ List ℕ) (K : ℕ) (G : ℕ → ℕ → CQ),
        (randomize s NrA NtA K G).H.shape
            = [(bcast NrA K).sum, (bcast NtA K).sum]
          ∧ ((bcast NrA K).length = K → (bcast NtA K).length = K →
              chanInv (randomize s NrA NtA K G))) := by
  constructor
  · intro s r c M Nr Nt K h
    unfold init_from_channel_matrix at h ⊢
    by_cases h1 : (r, c) ≠ (Nr.sum, Nt.sum)
    · rw [if_pos h1] at h; exact absurd h (by simp)
    · rw [if_neg h1] at h ⊢
      by_cases h2 : Nr.length ≠ Nt.length
      · rw [if_pos h2] at h; exact absurd h (by simp)
      · rw [if_neg h2] at h ⊢
        by_cases h3 : Nt.length ≠ K
        · rw [if_pos h3] at h; exact absurd h (by simp)
        · rw [if_neg h3] at h ⊢
          push_neg at h1 h2 h3
          have hr : r = Nr.sum := congrArg Prod.fst h1
          have hc : c = Nt.sum := congrArg Prod.snd h1
          refine ⟨by simp; omega, by simp; omega, ?_⟩
          show (toNObj M).shape = _
          simp only [toNObj, NObj.shape]
          rw [hr, hc]
  · intro s NrA NtA K G
    refine ⟨rfl, fun hN hT => ⟨hN, hT, rfl⟩⟩

/-- Witness for C7's amended theorem: a scalar-broadcast `randomize` call and
a consistent `init_from_channel_matrix` call both establish the invariant. -/
theorem claim_chanInv_amended_witness :
    chanInv (randomize freshChan (Sum.inl 1) (Sum.inl 1) 2 (fun _ _ => 0))
      ∧ chanInv (init_from_channel_matrix freshChan (0 : Matrix (Fin 2) (Fin 2) CQ) [1, 1] [1, 1] 2).1 :=
  ⟨(claim_chanInv_amended.2 freshChan (Sum.inl 1) (Sum.inl 1) 2 (fun _ _ => 0)).2
      (by decide) (by decide),
   claim_chanInv_amended.1 freshChan 2 2 0 [1, 1] [1, 1] 2 (by decide)⟩

/-- C9 counterexample: on a freshly constructed solver (`K = 0`, empty
channel, no precoders), no usage error is raised: `getCost` silently returns
0 and `updateW` and `step` (hence `updateC` and `updateF`, which are total)
succeed, because every loop runs over `np.arange(0)`. -/
theorem claim_failfast_cex :
    getCost freshSolver = 0
      ∧ exceptOk (updateW freshSolver) = true
      ∧ exceptOk (step idEig freshSolver) = true := by
  refine ⟨rfl, ?_, ?_⟩
  · unfold updateW
    rw [dif_pos (fun k : Fin 0 => k.elim0)]
    rfl
  · show exceptOk (updateW (updateF idEig (updateC idEig freshSolver))) = true
    unfold updateW
    rw [dif_pos (fun k : Fin 0 => k.elim0)]
    rfl

/-- C9 amended: calling the iteration before the channel model or precoders
are initialized (the freshly constructed solver has `K = 0` and empty
fields) does not fail fast: every loop body is skipped, so `getCost` returns
0 and `updateC`, `updateF`, `updateW` and `step` silently succeed on the
empty state. -/
theorem claim_failfast_amended :
    ∀ (E : EigLib) (Nr Nt Ns : ℕ → ℕ) (s : IASt 0 Nr Nt Ns),
      getCost s = 0
        ∧ exceptOk (updateW s) = true
        ∧ exceptOk (step E s) = true := by
  intro E Nr Nt Ns s
  refine ⟨rfl, ?_, ?_⟩
  · unfold updateW
    rw [dif_pos (fun k : Fin 0 => k.elim0)]
    rfl
  · show exceptOk (updateW (updateF E (updateC E s))) = true
    unfold updateW
    rw [dif_pos (fun k : Fin 0 => k.elim0)]
    rfl

/-- C10 amended: no solver operation among `updateC`, `updateF`, `updateW`,
`step` and `getCost` mutates the attached channel (`H`, and the dimension
data `Nr`/`Nt`/`K`, which are fixed parameters of the state type); `updateF`
and `updateW` change only their own field and assign it once, atomically, at
the end (`self.F = newF` / `self.W = newW`), and `getCost` is pure; but
`updateC` does not compute-then-swap: its first statement replaces `self.C`
by a fresh object array of `K` integer zeros (`updateCFirstAssign`) and the
loop then fills the entries in place, so a partially updated `C` is
observable whenever a later iteration fails. -/
theorem claim_frame_amended :
    ∀ (E : EigLib) (K : ℕ) (Nr Nt Ns : ℕ → ℕ) (s : IASt K Nr Nt Ns),
      ((updateC E s).H = s.H ∧ (updateC E s).F = s.F ∧ (updateC E s).W = s.W)
      ∧ ((updateF E s).H = s.H ∧ (updateF E s).C = s.C ∧ (updateF E s).W = s.W)
      ∧ (∀ s2, updateW s = Except.ok s2 → s2.H = s.H ∧ s2.F = s.F ∧ s2.C = s.C)
      ∧ (∀ s2, step E s = Except.ok s2 → s2.H = s.H)
      ∧ updateCFirstAssign K = List.replicate K NObj.i0 := by
  intro E K Nr Nt Ns s
  refine ⟨⟨rfl, rfl, rfl⟩, ⟨rfl, rfl, rfl⟩,
    fun s2 h => updateW_ok_frame s s2 h, fun s2 h => ?_, rfl⟩
  exact (updateW_ok_frame _ s2 h).1

/-- Witness for C10's amended theorem at a concrete state (for the
`updateW`-success hypothesis). -/
theorem claim_frame_amended_witness :
    (updateC idEig freshSolver).H = freshSolver.H
      ∧ (newWState freshSolver).H = freshSolver.H :=
  ⟨(claim_frame_amended idEig 0 zf zf zf freshSolver).1.1,
   ((claim_frame_amended idEig 0 zf zf zf freshSolver).2.2.1 (newWState freshSolver) rfl).1⟩

/-- C10 counterexample: at a concrete two-user state whose old bases are
nonzero, the object array `self.C` holds right after the first statement of
`updateC` (an array of `K` integer zeros) is neither the old `C` nor the new
`C`, so the partially updated field is observable mid-operation, refuting the
claim that every update computes its new value and then atomically swaps it
in. -/
theorem claim_frame_cex :
    updateCFirstAssign 2 ≠ solverCObjs sCex
      ∧ updateCFirstAssign 2 ≠ solverCObjs (updateC idEig sCex) := by
  constructor
  · intro h
    simp [updateCFirstAssign, solverCObjs, toNObj, List.ofFn_succ] at h
  · intro h
    simp [updateCFirstAssign, solverCObjs, toNObj, List.ofFn_succ] at h

/-- A concrete scenario-A state (`K=3`, `Nr=[2,4,6]`, `Nt=[2,3,5]`, one
stream per user), used to instantiate the block-extraction theorem. -/
def s3A : IASt 3 nrA ntA oneF :=
  { H := Matrix.of fun _ _ => 0
    F := fun _ => Matrix.of fun _ _ => 0
    C := fun _ => Matrix.of fun _ _ => 0
    W := fun _ => Matrix.of fun _ _ => 0
    hNs := by intro k; fin_cases k <;> decide }

/-- Witness for C2 at the concrete scenario-A state. -/
theorem claim_getChannel_blocks_witness :
    getChannel s3A 1 0 ⟨0, by decide⟩ ⟨0, by decide⟩
      = s3A.H (blockIdx nrA 3 ⟨1, ⟨0, by decide⟩⟩) (blockIdx ntA 3 ⟨0, ⟨0, by decide⟩⟩) :=
  claim_getChannel_blocks.1 3 nrA ntA oneF s3A 1 0 ⟨0, by decide⟩ ⟨0, by decide⟩
